import Mathlib

/-!
Verification development for the moneta semantic memory store.

Modelling conventions:
* Go `float32` arithmetic is modelled with exact rational arithmetic (`ℚ`);
  every algebraic claim proved here is the exact-arithmetic content of the
  corresponding floating-point statement ("modulo float error").
* `sqrt32` (the Quake-style fast square root, `internal/simd` and
  `internal/store/sqlite/encoding.go`) manipulates IEEE-754 bits, which have
  no exact rational counterpart; it is modelled by a parameter
  `sq : ℚ → ℚ` wrapped in the source's `x ≤ 0` guard (`sqrt32`).  All
  theorems hold for every choice of `sq`.
* Go slice reads `a[i]` that are guarded by a length check are modelled with
  `List.getD`; unguarded reads (which can panic) are modelled with
  `List.get?` inside `Option`, `none` standing for the runtime panic.
* The 8-way unrolled accumulation loops of the kernel are embedded as
  `goSum` (8-element blocks followed by the remainder loop); over exact
  arithmetic the unrolling is a reassociation, and `goSum_eq_sumTo` proves
  the embedded loop equal to the plain left-to-right sum.
-/

namespace Moneta

namespace Simd

/-- One 8-element block of the unrolled accumulation loops
(`CosineSimilarity`, `DotProduct`, `L2Norm` in `internal/simd`):
`f i + f (i+1) + ... + f (i+7)`, left associated as in the Go source. -/
def block8 (f : ℕ → ℚ) (i : ℕ) : ℚ :=
  f i + f (i + 1) + f (i + 2) + f (i + 3) + f (i + 4) + f (i + 5) + f (i + 6) + f (i + 7)

/-- The main loop `for i := 0; i < limit; i += 8`, as `k` executions of the
8-element block starting at `8*j` for `j < k`. -/
def blocks (f : ℕ → ℚ) : ℕ → ℚ
  | 0 => 0
  | k + 1 => blocks f k + block8 f (8 * k)

/-- The remainder loop `for i := limit; i < n; i++`: `k` further terms
starting at index `i`. -/
def sumUp (f : ℕ → ℚ) (i : ℕ) : ℕ → ℚ
  | 0 => 0
  | k + 1 => f i + sumUp f (i + 1) k

/-- Plain left-to-right sum `f 0 + f 1 + ... + f (n-1)`, the reference
value the unrolled loops compute. -/
def sumTo (f : ℕ → ℚ) : ℕ → ℚ
  | 0 => 0
  | n + 1 => sumTo f n + f n

/-- The full unrolled-loop pattern of the simd kernel: blocks of 8 up to
`limit = n - n % 8`, then the remainder loop from `limit` to `n`. -/
def goSum (f : ℕ → ℚ) (n : ℕ) : ℚ :=
  blocks f (n / 8) + sumUp f (n - n % 8) (n % 8)

theorem sumTo_add_sumUp (f : ℕ → ℚ) (b a : ℕ) :
    sumTo f a + sumUp f a b = sumTo f (a + b) := by
  induction b generalizing a with
  | zero => simp [sumUp]
  | succ k ih =>
      have h1 : sumTo f a + f a = sumTo f (a + 1) := by simp [sumTo]
      calc sumTo f a + sumUp f a (k + 1)
          = (sumTo f a + f a) + sumUp f (a + 1) k := by simp [sumUp]; ring
        _ = sumTo f (a + 1) + sumUp f (a + 1) k := by rw [h1]
        _ = sumTo f (a + 1 + k) := ih (a + 1)
        _ = sumTo f (a + (k + 1)) := by ring_nf

theorem block8_eq_sumUp (f : ℕ → ℚ) (i : ℕ) :
    block8 f i = sumUp f i 8 := by
  show block8 f i = sumUp f i (7 + 1)
  rw [sumUp]
  show block8 f i = f i + sumUp f (i + 1) (6 + 1)
  rw [sumUp]
  show block8 f i = f i + (f (i + 1) + sumUp f (i + 1 + 1) (5 + 1))
  rw [sumUp]
  show block8 f i = f i + (f (i + 1) + (f (i + 2) + sumUp f (i + 3) (4 + 1)))
  rw [sumUp]
  show block8 f i = f i + (f (i + 1) + (f (i + 2) + (f (i + 3) + sumUp f (i + 4) (3 + 1))))
  rw [sumUp]
  show block8 f i =
      f i + (f (i + 1) + (f (i + 2) + (f (i + 3) + (f (i + 4) + sumUp f (i + 5) (2 + 1)))))
  rw [sumUp]
  show block8 f i =
      f i + (f (i + 1) + (f (i + 2) + (f (i + 3) + (f (i + 4) +
        (f (i + 5) + sumUp f (i + 6) (1 + 1))))))
  rw [sumUp]
  show block8 f i =
      f i + (f (i + 1) + (f (i + 2) + (f (i + 3) + (f (i + 4) +
        (f (i + 5) + (f (i + 6) + sumUp f (i + 7) (0 + 1)))))))
  rw [sumUp]
  simp [block8, sumUp]
  ring

theorem blocks_eq_sumTo (f : ℕ → ℚ) (k : ℕ) :
    blocks f k = sumTo f (8 * k) := by
  induction k with
  | zero => simp [blocks, sumTo]
  | succ k ih =>
      have h : sumTo f (8 * k) + sumUp f (8 * k) 8 = sumTo f (8 * k + 8) :=
        sumTo_add_sumUp f 8 (8 * k)
      calc blocks f (k + 1) = blocks f k + block8 f (8 * k) := rfl
        _ = sumTo f (8 * k) + sumUp f (8 * k) 8 := by rw [ih, block8_eq_sumUp]
        _ = sumTo f (8 * k + 8) := h
        _ = sumTo f (8 * (k + 1)) := by ring_nf

/-- The unrolled loop computes the plain sum: the 8-way unrolling of the
simd kernel is a reassociation, exact over `ℚ`. -/
theorem goSum_eq_sumTo (f : ℕ → ℚ) (n : ℕ) : goSum f n = sumTo f n := by
  have hmod : n - n % 8 = 8 * (n / 8) := by omega
  have := sumTo_add_sumUp f (n % 8) (8 * (n / 8))
  have hn : 8 * (n / 8) + n % 8 = n := by omega
  rw [goSum, hmod, blocks_eq_sumTo, this, hn]

theorem sumTo_eq_range_sum (f : ℕ → ℚ) (n : ℕ) :
    sumTo f n = ∑ i ∈ Finset.range n, f i := by
  induction n with
  | zero => simp [sumTo]
  | succ n ih => rw [sumTo, ih, Finset.sum_range_succ]

/-- Dot product of two vectors as a list operation (specification form). -/
def dotList (a b : List ℚ) : ℚ := (List.zipWith (fun x y => x * y) a b).sum

/-- Sum of squares of a vector, i.e. its squared L2 norm (specification
form). -/
def sumSq (a : List ℚ) : ℚ := (a.map (fun x => x * x)).sum

theorem list_sum_eq_range_sum (l : List ℚ) :
    l.sum = ∑ i ∈ Finset.range l.length, l.getD i 0 := by
  induction l with
  | nil => simp
  | cons x xs ih =>
      rw [List.sum_cons, ih, List.length_cons, Finset.sum_range_succ']
      simp [List.getD]
      ring

theorem dotList_eq_range_sum (a b : List ℚ) (h : a.length = b.length) :
    dotList a b = ∑ i ∈ Finset.range a.length, a.getD i 0 * b.getD i 0 := by
  rw [dotList, list_sum_eq_range_sum]
  have hlen : (List.zipWith (fun x y => x * y) a b).length = a.length := by
    simp [List.length_zipWith, h]
  rw [hlen]
  refine Finset.sum_congr rfl ?_
  intro i hi
  rw [Finset.mem_range] at hi
  have hia : i < a.length := hi
  have hib : i < b.length := h ▸ hi
  have hiz : i < (List.zipWith (fun x y => x * y) a b).length := by
    rw [hlen]; exact hi
  rw [List.getD_eq_getElem _ _ hiz, List.getD_eq_getElem _ _ hia, List.getD_eq_getElem _ _ hib]
  simp [List.getElem_zipWith]

theorem sumSq_eq_range_sum (a : List ℚ) :
    sumSq a = ∑ i ∈ Finset.range a.length, a.getD i 0 * a.getD i 0 := by
  rw [sumSq, list_sum_eq_range_sum]
  have hlen : (a.map (fun x => x * x)).length = a.length := by simp
  rw [hlen]
  refine Finset.sum_congr rfl ?_
  intro i hi
  rw [Finset.mem_range] at hi
  have hm : i < (a.map (fun x => x * x)).length := by simp [hi]
  rw [List.getD_eq_getElem _ _ hm, List.getD_eq_getElem _ _ hi]
  simp

/-- Model of `sqrt32` (Quake-III fast square root with two Newton
iterations): the `x <= 0` guard is taken from the source; the positive
branch, which is bit twiddling on the IEEE representation, is the
parameter `sq`. -/
def sqrt32 (sq : ℚ → ℚ) (x : ℚ) : ℚ :=
  if x ≤ 0 then 0 else sq x

/-- `CosineSimilarity` from `internal/simd` (part_009 lines 47-85): guard on
mismatched or empty lengths, one pass computing `dot`, `normA`, `normB`
with 8-way unrolling, guard on zero norms, then
`dot / (sqrt32 normA * sqrt32 normB)`. -/
def CosineSimilarity (sq : ℚ → ℚ) (a b : List ℚ) : ℚ :=
  if a.length ≠ b.length ∨ a.length = 0 then 0
  else
    let n := a.length
    let dotProduct := goSum (fun i => a.getD i 0 * b.getD i 0) n
    let normA := goSum (fun i => a.getD i 0 * a.getD i 0) n
    let normB := goSum (fun i => b.getD i 0 * b.getD i 0) n
    if normA = 0 ∨ normB = 0 then 0
    else dotProduct / (sqrt32 sq normA * sqrt32 sq normB)

theorem cosine_normA_eq (a : List ℚ) :
    goSum (fun i => a.getD i 0 * a.getD i 0) a.length = sumSq a := by
  rw [goSum_eq_sumTo, sumTo_eq_range_sum, sumSq_eq_range_sum]

theorem cosine_normB_eq (a b : List ℚ) (h : a.length = b.length) :
    goSum (fun i => b.getD i 0 * b.getD i 0) a.length = sumSq b := by
  rw [goSum_eq_sumTo, sumTo_eq_range_sum, sumSq_eq_range_sum, h]

theorem cosine_dot_eq (a b : List ℚ) (h : a.length = b.length) :
    goSum (fun i => a.getD i 0 * b.getD i 0) a.length = dotList a b := by
  rw [goSum_eq_sumTo, sumTo_eq_range_sum, dotList_eq_range_sum a b h]

/-- C6: CosineSimilarity returns 0 when the lengths differ, when either
vector is empty, or when either has zero (squared) L2 norm; otherwise it
returns the dot product divided by the product of the two `sqrt32` norms,
and the exact-arithmetic Cauchy-Schwarz bound `dot² ≤ ‖a‖²·‖b‖²` (the
content of "bounded by ±1 modulo floating-point error") holds. -/
theorem C6_cosineSimilarity_spec (sq : ℚ → ℚ) (a b : List ℚ) :
    (a.length ≠ b.length ∨ a = [] → CosineSimilarity sq a b = 0) ∧
    (sumSq a = 0 ∨ sumSq b = 0 → CosineSimilarity sq a b = 0) ∧
    (a.length = b.length → a ≠ [] → sumSq a ≠ 0 → sumSq b ≠ 0 →
      CosineSimilarity sq a b =
        dotList a b / (sqrt32 sq (sumSq a) * sqrt32 sq (sumSq b)) ∧
      dotList a b ^ 2 ≤ sumSq a * sumSq b) := by
  refine ⟨?_, ?_, ?_⟩
  · intro h
    have hc : a.length ≠ b.length ∨ a.length = 0 := by
      rcases h with h | h
      · exact Or.inl h
      · exact Or.inr (by simp [h])
    simp only [CosineSimilarity, if_pos hc]
  · intro h
    by_cases hc : a.length ≠ b.length ∨ a.length = 0
    · simp only [CosineSimilarity, if_pos hc]
    · push_neg at hc
      obtain ⟨h1, h2⟩ := hc
      simp only [CosineSimilarity]
      rw [if_neg (by push_neg; exact ⟨h1, h2⟩)]
      rw [cosine_normA_eq a, cosine_normB_eq a b h1]
      rw [if_pos h]
  · intro h1 h2 ha hb
    have hc : ¬(a.length ≠ b.length ∨ a.length = 0) := by
      push_neg
      exact ⟨h1, by simpa using h2⟩
    constructor
    · simp only [CosineSimilarity]
      rw [if_neg hc, cosine_normA_eq a, cosine_normB_eq a b h1, cosine_dot_eq a b h1]
      rw [if_neg (by push_neg; exact ⟨ha, hb⟩)]
    · have cs := Finset.sum_mul_sq_le_sq_mul_sq (Finset.range a.length)
        (fun i => a.getD i 0) (fun i => b.getD i 0)
      rw [dotList_eq_range_sum a b h1, sumSq_eq_range_sum a, sumSq_eq_range_sum b, ← h1]
      calc (∑ i ∈ Finset.range a.length, a.getD i 0 * b.getD i 0) ^ 2
          ≤ (∑ i ∈ Finset.range a.length, a.getD i 0 ^ 2) *
              ∑ i ∈ Finset.range a.length, b.getD i 0 ^ 2 := cs
        _ = (∑ i ∈ Finset.range a.length, a.getD i 0 * a.getD i 0) *
              ∑ i ∈ Finset.range a.length, b.getD i 0 * b.getD i 0 := by
            simp [pow_two]

theorem C6_cosineSimilarity_spec_witness :
    CosineSimilarity (fun x => x) [(1 : ℚ), 2] [2, 1] =
      dotList [(1 : ℚ), 2] [2, 1] /
        (sqrt32 (fun x => x) (sumSq [(1 : ℚ), 2]) * sqrt32 (fun x => x) (sumSq [2, 1])) ∧
    dotList [(1 : ℚ), 2] [2, 1] ^ 2 ≤ sumSq [(1 : ℚ), 2] * sumSq [2, 1] :=
  (C6_cosineSimilarity_spec (fun x => x) [1, 2] [2, 1]).2.2 (by decide) (by decide)
    (by norm_num [sumSq]) (by norm_num [sumSq])

/-- Inner loop of `BatchCosineSimilarity` over one target (part_009 lines
158-179): walks `j` over the indices of `target`, reading `query[j]`
without any bounds check — `none` models the out-of-range panic when the
target is longer than the query.  The 8-way unrolling accesses exactly the
same indices and accumulates the same exact sums. -/
def targetPass (query : List ℚ) : List ℚ → ℕ → ℚ → ℚ → Option (ℚ × ℚ)
  | [], _, dot, targetNorm => some (dot, targetNorm)
  | x :: rest, j, dot, targetNorm =>
    match query.get? j with
    | none => none
    | some qv => targetPass query rest (j + 1) (dot + qv * x) (targetNorm + x * x)

/-- Writing `similarities[i] = v`: in range it updates the slot, out of
range it panics (`none`). -/
def listSet? (l : List ℚ) (i : ℕ) (x : ℚ) : Option (List ℚ) :=
  if i < l.length then some (l.set i x) else none

/-- The `for i, target := range targets` loop of `BatchCosineSimilarity`. -/
def batchLoop (sq : ℚ → ℚ) (query : List ℚ) (invQueryNorm : ℚ) :
    List (List ℚ) → ℕ → List ℚ → Option (List ℚ)
  | [], _, similarities => some similarities
  | t :: ts, i, similarities =>
    match targetPass query t 0 0 0 with
    | none => none
    | some (dot, targetNorm) =>
      let v := if targetNorm = 0 then 0 else dot * invQueryNorm / sqrt32 sq targetNorm
      match listSet? similarities i v with
      | none => none
      | some similarities' => batchLoop sq query invQueryNorm ts (i + 1) similarities'

/-- `BatchCosineSimilarity` from `internal/simd` (part_009 lines 141-187):
precompute the query norm once; zero-fill the output if it is 0; otherwise
score every target in input order. -/
def BatchCosineSimilarity (sq : ℚ → ℚ) (query : List ℚ) (targets : List (List ℚ))
    (similarities : List ℚ) : Option (List ℚ) :=
  let queryNorm := sqrt32 sq (query.foldl (fun s v => s + v * v) 0)
  if queryNorm = 0 then some (List.replicate similarities.length 0)
  else batchLoop sq query (1 / queryNorm) targets 0 similarities

theorem foldl_add_sq_eq (l : List ℚ) : ∀ s, l.foldl (fun s v => s + v * v) s = s + sumSq l := by
  induction l with
  | nil => intro s; simp [sumSq]
  | cons x xs ih =>
      intro s
      rw [List.foldl_cons, ih]
      simp [sumSq]
      ring

theorem targetPass_some (query : List ℚ) (t : List ℚ) :
    ∀ (j : ℕ) (dot targetNorm : ℚ), j + t.length ≤ query.length →
      ∃ p, targetPass query t j dot targetNorm = some p := by
  induction t with
  | nil => intro j dot tn _; exact ⟨(dot, tn), rfl⟩
  | cons x rest ih =>
      intro j dot tn hle
      have hj : j < query.length := by simp at hle; omega
      cases hq : query.get? j with
      | none =>
          exfalso
          have := List.get?_eq_none.mp hq
          omega
      | some qv =>
          have := ih (j + 1) (dot + qv * x) (tn + x * x) (by simp at hle ⊢; omega)
          obtain ⟨p, hp⟩ := this
          exact ⟨p, by rw [targetPass, hq]; exact hp⟩

theorem batchLoop_some (sq : ℚ → ℚ) (query : List ℚ) (inv : ℚ) (ts : List (List ℚ)) :
    ∀ (i : ℕ) (sims : List ℚ), (∀ t ∈ ts, t.length ≤ query.length) →
      i + ts.length ≤ sims.length →
      ∃ res, batchLoop sq query inv ts i sims = some res ∧ res.length = sims.length := by
  induction ts with
  | nil => intro i sims _ _; exact ⟨sims, rfl, rfl⟩
  | cons t rest ih =>
      intro i sims hsub hle
      obtain ⟨⟨dot, tn⟩, hp⟩ :=
        targetPass_some query t 0 0 0 (by simpa using hsub t (by simp))
      have hi : i < sims.length := by simp at hle; omega
      have hset : listSet? sims i (if tn = 0 then 0 else dot * inv / sqrt32 sq tn) =
          some (sims.set i (if tn = 0 then 0 else dot * inv / sqrt32 sq tn)) := by
        rw [listSet?, if_pos hi]
      obtain ⟨res, hres, hlen⟩ := ih (i + 1)
        (sims.set i (if tn = 0 then 0 else dot * inv / sqrt32 sq tn))
        (fun t' ht' => hsub t' (by simp [ht']))
        (by simp at hle ⊢; omega)
      refine ⟨res, ?_, by simpa using hlen⟩
      rw [batchLoop, hp]
      simp only [hset]
      exact hres

theorem C3_batch_counterexample :
    BatchCosineSimilarity (fun x => x) [1] [[1, 2]] [0] = none ∧
    BatchCosineSimilarity (fun x => x) [1, 1] [[2]] [0] = some [(1 : ℚ) / 4] := by
  constructor <;>
    norm_num [BatchCosineSimilarity, batchLoop, targetPass, sqrt32, listSet?, List.get?]

/-- C3 (amended): BatchCosineSimilarity performs no length check on the
targets, so it is total only when every target is at most as long as the
query (a longer target reads `query` out of range — the modelled panic
`none`; a shorter target is scored over its common prefix with the query
rather than receiving 0).  Under `len(out) = len(targets)` and that bound
it never indexes out of range, and a query with zero L2 norm fills the
whole output with zeros. -/
theorem C3_batchCosineSimilarity_amended (sq : ℚ → ℚ) (query : List ℚ)
    (targets : List (List ℚ)) (similarities : List ℚ)
    (hlen : similarities.length = targets.length)
    (hsub : ∀ t ∈ targets, t.length ≤ query.length) :
    (∃ res, BatchCosineSimilarity sq query targets similarities = some res ∧
      res.length = similarities.length) ∧
    (sumSq query = 0 →
      BatchCosineSimilarity sq query targets similarities =
        some (List.replicate similarities.length 0)) := by
  constructor
  · by_cases hq : sqrt32 sq (query.foldl (fun s v => s + v * v) 0) = 0
    · refine ⟨List.replicate similarities.length 0, ?_, by simp⟩
      simp only [BatchCosineSimilarity]
      rw [if_pos hq]
    · obtain ⟨res, hres, hl⟩ := batchLoop_some sq query
        (1 / sqrt32 sq (query.foldl (fun s v => s + v * v) 0)) targets 0 similarities hsub
        (by omega)
      refine ⟨res, ?_, hl⟩
      simp only [BatchCosineSimilarity]
      rw [if_neg hq]
      exact hres
  · intro h0
    have hfold : query.foldl (fun s v => s + v * v) 0 = 0 := by
      rw [foldl_add_sq_eq, h0]; ring
    simp only [BatchCosineSimilarity]
    rw [if_pos (by rw [hfold]; simp [sqrt32])]

theorem C3_batchCosineSimilarity_amended_witness :
    (∃ res, BatchCosineSimilarity (fun x => x) [1, 1] [[2], [1, 1]] [5, 5] = some res ∧
      res.length = 2) ∧
    (sumSq [(1 : ℚ), 1] = 0 →
      BatchCosineSimilarity (fun x => x) [1, 1] [[2], [1, 1]] [5, 5] =
        some (List.replicate 2 0)) :=
  C3_batchCosineSimilarity_amended (fun x => x) [1, 1] [[2], [1, 1]] [5, 5]
    (by decide) (by intro t ht; fin_cases ht <;> decide)

end Simd

namespace Sqlite

/-!
Model of `internal/store/sqlite/encoding.go`.

A `float32` is represented by its 32-bit IEEE pattern, a natural number
below `2^32`; a byte is a natural number below `256`.  `float32ToBytes`
reinterprets the float array as bytes on the little-endian layout the Go
code assumes (`unsafe.Slice`); `float32ToBytesAlloc` writes the same
little-endian layout explicitly, so both have the same byte-level model.
-/

/-- `float32ToBytes` (zero-copy view, encoding.go lines 14-19): each float
contributes its four bytes, least significant first. -/
def float32ToBytes : List ℕ → List ℕ
  | [] => []
  | x :: rest =>
    x % 256 :: x / 256 % 256 :: x / 65536 % 256 :: x / 16777216 % 256 :: float32ToBytes rest

/-- `float32ToBytesAlloc` (copying encoder, encoding.go lines 35-48):
explicit little-endian byte extraction `byte(bits)`, `byte(bits >> 8)`,
`byte(bits >> 16)`, `byte(bits >> 24)`. -/
def float32ToBytesAlloc : List ℕ → List ℕ
  | [] => []
  | x :: rest =>
    x % 256 :: x / 256 % 256 :: x / 65536 % 256 :: x / 16777216 % 256 ::
      float32ToBytesAlloc rest

/-- Shared decoding core: reassemble consecutive groups of four bytes,
least significant first; any trailing group of fewer than four bytes is
unreachable under the `% 4` guard. -/
def bytesToFloat32Core : List ℕ → List ℕ
  | b0 :: b1 :: b2 :: b3 :: rest =>
    (b0 + 256 * b1 + 65536 * b2 + 16777216 * b3) :: bytesToFloat32Core rest
  | _ => []

/-- `bytesToFloat32` (zero-copy view, encoding.go lines 24-32): empty input
and lengths not divisible by 4 yield the empty vector. -/
def bytesToFloat32 (b : List ℕ) : List ℕ :=
  if b.length % 4 ≠ 0 then [] else bytesToFloat32Core b

/-- `bytesToFloat32Alloc` (copying decoder, encoding.go lines 51-64): same
guard and same little-endian reassembly. -/
def bytesToFloat32Alloc (b : List ℕ) : List ℕ :=
  if b.length = 0 ∨ b.length % 4 ≠ 0 then [] else bytesToFloat32Core b

theorem float32ToBytesAlloc_eq (f : List ℕ) : float32ToBytesAlloc f = float32ToBytes f := by
  induction f with
  | nil => rfl
  | cons x rest ih => simp [float32ToBytes, float32ToBytesAlloc, ih]

theorem length_float32ToBytes (f : List ℕ) : (float32ToBytes f).length = 4 * f.length := by
  induction f with
  | nil => rfl
  | cons x rest ih => simp [float32ToBytes, ih]; ring

theorem bytesToFloat32Core_float32ToBytes (f : List ℕ) (h : ∀ x ∈ f, x < 4294967296) :
    bytesToFloat32Core (float32ToBytes f) = f := by
  induction f with
  | nil => rfl
  | cons x rest ih =>
      have hx : x < 4294967296 := h x (by simp)
      have hrest := ih (fun y hy => h y (by simp [hy]))
      simp only [float32ToBytes, bytesToFloat32Core, hrest]
      congr 1
      omega

/-- C9: decoding inverts encoding exactly (for both the zero-copy and the
copying pair), the encoded blob has length `4 × len(f)`, and any byte
slice whose length is not divisible by 4 decodes to the empty vector. -/
theorem C9_encoding_roundtrip (f : List ℕ) (h : ∀ x ∈ f, x < 4294967296) :
    bytesToFloat32 (float32ToBytes f) = f ∧
    bytesToFloat32Alloc (float32ToBytesAlloc f) = f ∧
    (float32ToBytes f).length = 4 * f.length ∧
    (∀ b : List ℕ, b.length % 4 ≠ 0 →
      bytesToFloat32 b = [] ∧ bytesToFloat32Alloc b = []) := by
  have hcore := bytesToFloat32Core_float32ToBytes f h
  have hlen := length_float32ToBytes f
  refine ⟨?_, ?_, hlen, ?_⟩
  · rw [bytesToFloat32, if_neg (by rw [hlen]; omega)]
    exact hcore
  · rw [float32ToBytesAlloc_eq, bytesToFloat32Alloc]
    cases f with
    | nil => simp [float32ToBytes, bytesToFloat32Core]
    | cons x rest =>
        rw [if_neg (by rw [hlen]; push_neg; exact ⟨by simp [float32ToBytes], by omega⟩)]
        exact hcore
  · intro b hb
    constructor
    · rw [bytesToFloat32, if_pos hb]
    · rw [bytesToFloat32Alloc, if_pos (Or.inr hb)]

theorem C9_encoding_roundtrip_witness :
    bytesToFloat32 (float32ToBytes [0, 4294967295, 66051]) = [0, 4294967295, 66051] ∧
    bytesToFloat32Alloc (float32ToBytesAlloc [0, 4294967295, 66051]) = [0, 4294967295, 66051] ∧
    (float32ToBytes [0, 4294967295, 66051]).length = 4 * 3 ∧
    (∀ b : List ℕ, b.length % 4 ≠ 0 →
      bytesToFloat32 b = [] ∧ bytesToFloat32Alloc b = []) :=
  C9_encoding_roundtrip [0, 4294967295, 66051] (by decide)

end Sqlite

/-- `types.Memory`: the unit of storage.  Timestamps are abstract ticks
(`0` = Go's zero time); the embedding is carried at the exact-value level
(`List ℚ`). -/
structure Memory where
  id : String
  content : String
  project : String
  type : String
  filePath : String
  language : String
  metadata : List (String × String)
  embedding : List ℚ
  createdAt : ℕ
  updatedAt : ℕ
deriving DecidableEq

/-- `types.SearchResult`: a memory paired with its similarity. -/
structure SearchResult where
  memory : Memory
  similarity : ℚ
deriving DecidableEq

/-- `store.SearchOptions` as consumed by `Store.Search`. -/
structure SearchOptions where
  project : String
  types : List String
  filePaths : List String
  limit : ℤ
  threshold : ℚ

namespace Sqlite

/-- `sqrt32` as duplicated in encoding.go (lines 235-245); same model as
the simd copy. -/
def sqrt32 (sq : ℚ → ℚ) (x : ℚ) : ℚ :=
  if x ≤ 0 then 0 else sq x

/-- `cosineSimilarity` (encoding.go lines 199-232), the fallback used by
`Store.Search`; byte-identical body to `simd.CosineSimilarity`. -/
def cosineSimilarity (sq : ℚ → ℚ) (a b : List ℚ) : ℚ :=
  if a.length ≠ b.length ∨ a.length = 0 then 0
  else
    let n := a.length
    let dotProduct := Simd.goSum (fun i => a.getD i 0 * b.getD i 0) n
    let normA := Simd.goSum (fun i => a.getD i 0 * a.getD i 0) n
    let normB := Simd.goSum (fun i => b.getD i 0 * b.getD i 0) n
    if normA = 0 ∨ normB = 0 then 0
    else dotProduct / (sqrt32 sq normA * sqrt32 sq normB)

/-- One step of `insertionSortResults`' backward scan: the new element is
placed after every element with similarity ≥ its own. -/
def insertDesc (x : SearchResult) : List SearchResult → List SearchResult
  | [] => [x]
  | y :: ys => if y.similarity < x.similarity then x :: y :: ys else y :: insertDesc x ys

/-- `insertionSortResults` (encoding.go lines 88-100): insertion sort into
non-increasing similarity order. -/
def insertionSortResults (l : List SearchResult) : List SearchResult :=
  l.foldl (fun acc x => insertDesc x acc) []

/-- The comparison under which results are sorted: `le x y` iff
`x.similarity ≥ y.similarity`. -/
def simGE (x y : SearchResult) : Bool :=
  decide (y.similarity ≤ x.similarity)

/-- `sortBySimilarity` (encoding.go lines 68-84): no-op for `n ≤ 1`,
insertion sort for `n ≤ 16`, and Go's `sort.Slice` with
`less = similarity >` — modelled as a comparison sort over the same
ordering — beyond that. -/
def sortBySimilarity (l : List SearchResult) : List SearchResult :=
  if l.length ≤ 1 then l
  else if l.length ≤ 16 then insertionSortResults l
  else l.mergeSort simGE

theorem perm_insertDesc (x : SearchResult) (l : List SearchResult) :
    List.Perm (insertDesc x l) (x :: l) := by
  induction l with
  | nil => rfl
  | cons y ys ih =>
      rw [insertDesc]
      by_cases h : y.similarity < x.similarity
      · rw [if_pos h]
      · rw [if_neg h]
        exact (ih.cons y).trans (List.Perm.swap x y ys)

theorem pairwise_insertDesc (x : SearchResult) (l : List SearchResult)
    (h : l.Pairwise (fun a b => b.similarity ≤ a.similarity)) :
    (insertDesc x l).Pairwise (fun a b => b.similarity ≤ a.similarity) := by
  induction l with
  | nil => simp [insertDesc]
  | cons y ys ih =>
      rw [List.pairwise_cons] at h
      obtain ⟨hy, hys⟩ := h
      rw [insertDesc]
      by_cases hlt : y.similarity < x.similarity
      · rw [if_pos hlt, List.pairwise_cons]
        refine ⟨?_, List.pairwise_cons.mpr ⟨hy, hys⟩⟩
        intro z hz
        rcases List.mem_cons.mp hz with hz | hz
        · exact hz ▸ le_of_lt hlt
        · exact (hy z hz).trans (le_of_lt hlt)
      · rw [if_neg hlt, List.pairwise_cons]
        refine ⟨?_, ih hys⟩
        intro z hz
        have hz' : z ∈ x :: ys := (perm_insertDesc x ys).mem_iff.mp hz
        rcases List.mem_cons.mp hz' with hz' | hz'
        · exact hz' ▸ le_of_not_lt hlt
        · exact hy z hz'

theorem foldl_insertDesc_perm (l : List SearchResult) :
    ∀ acc, List.Perm (l.foldl (fun acc x => insertDesc x acc) acc) (acc ++ l) := by
  induction l with
  | nil => intro acc; simp
  | cons x xs ih =>
      intro acc
      refine List.Perm.trans (ih (insertDesc x acc)) ?_
      refine List.Perm.trans ((perm_insertDesc x acc).append_right xs) ?_
      exact List.perm_middle.symm

theorem perm_insertionSortResults (l : List SearchResult) :
    List.Perm (insertionSortResults l) l := by
  simpa using foldl_insertDesc_perm l []

theorem foldl_insertDesc_pairwise (l : List SearchResult) :
    ∀ acc, acc.Pairwise (fun a b => b.similarity ≤ a.similarity) →
      (l.foldl (fun acc x => insertDesc x acc) acc).Pairwise
        (fun a b => b.similarity ≤ a.similarity) := by
  induction l with
  | nil => intro acc hacc; exact hacc
  | cons x xs ih => intro acc hacc; exact ih _ (pairwise_insertDesc x acc hacc)

theorem pairwise_insertionSortResults (l : List SearchResult) :
    (insertionSortResults l).Pairwise (fun a b => b.similarity ≤ a.similarity) :=
  foldl_insertDesc_pairwise l [] List.Pairwise.nil

theorem pairwise_sortBySimilarity (l : List SearchResult) :
    (sortBySimilarity l).Pairwise (fun a b => b.similarity ≤ a.similarity) := by
  rw [sortBySimilarity]
  by_cases h1 : l.length ≤ 1
  · rw [if_pos h1]
    match l, h1 with
    | [], _ => exact List.Pairwise.nil
    | [x], _ => simp
  · rw [if_neg h1]
    by_cases h16 : l.length ≤ 16
    · rw [if_pos h16]
      exact pairwise_insertionSortResults l
    · rw [if_neg h16]
      have hs := @List.sorted_mergeSort SearchResult
        simGE
        (fun a b c hab hbc => by
          simp only [simGE, decide_eq_true_eq] at hab hbc ⊢
          exact hbc.trans hab)
        (fun a b => by
          simp only [simGE]
          rcases le_total b.similarity a.similarity with h | h <;> simp [h])
        l
      exact hs.imp (fun h => by simpa [simGE] using h)

theorem perm_sortBySimilarity (l : List SearchResult) :
    List.Perm (sortBySimilarity l) l := by
  rw [sortBySimilarity]
  by_cases h1 : l.length ≤ 1
  · rw [if_pos h1]
  · rw [if_neg h1]
    by_cases h16 : l.length ≤ 16
    · rw [if_pos h16]
      exact perm_insertionSortResults l
    · rw [if_neg h16]
      exact List.mergeSort_perm l simGE

/-- The filter predicate `Store.Search` builds from its options
(part_008 lines 308-333): project equality, `type IN`, and
`file_path LIKE fp%` disjunction, each only when requested. -/
def rowMatches (opts : SearchOptions) (m : Memory) : Bool :=
  (decide (opts.project = "") || decide (m.project = opts.project)) &&
  (decide (opts.types = []) || opts.types.contains m.type) &&
  (decide (opts.filePaths = []) || opts.filePaths.any (fun fp => fp.isPrefixOf m.filePath))

/-- `Store.Search` (part_008 lines 304-384): stream matching rows in table
order, score each with `cosineSimilarity`, drop rows below the threshold
when `threshold > 0`, sort by similarity descending, truncate to `limit`
(defaulted to 10 when non-positive). -/
def Search (sq : ℚ → ℚ) (rows : List Memory) (embedding : List ℚ)
    (opts : SearchOptions) : List SearchResult :=
  let limit := if 0 < opts.limit then opts.limit else 10
  let results := (rows.filter (rowMatches opts)).filterMap (fun m =>
    let similarity := cosineSimilarity sq embedding m.embedding
    if 0 < opts.threshold ∧ similarity < opts.threshold then none
    else some ⟨m, similarity⟩)
  let sorted := sortBySimilarity results
  sorted.take limit.toNat

/-- C1: Search results are sorted in non-increasing similarity, every
result clears the threshold whenever the threshold is positive, and the
list is truncated to at most `limit` entries (10 when `limit` is
non-positive). -/
theorem C1_search_spec (sq : ℚ → ℚ) (rows : List Memory) (embedding : List ℚ)
    (opts : SearchOptions) :
    (Search sq rows embedding opts).Pairwise
      (fun a b => b.similarity ≤ a.similarity) ∧
    (0 < opts.threshold →
      ∀ r ∈ Search sq rows embedding opts, opts.threshold ≤ r.similarity) ∧
    ((Search sq rows embedding opts).length : ℤ) ≤
      (if 0 < opts.limit then opts.limit else 10) := by
  refine ⟨?_, ?_, ?_⟩
  · exact (pairwise_sortBySimilarity _).sublist (List.take_sublist _ _)
  · intro hthr r hr
    have hr1 : r ∈ sortBySimilarity ((rows.filter (rowMatches opts)).filterMap (fun m =>
        let similarity := cosineSimilarity sq embedding m.embedding
        if 0 < opts.threshold ∧ similarity < opts.threshold then none
        else some ⟨m, similarity⟩)) := List.mem_of_mem_take hr
    have hr2 := (perm_sortBySimilarity _).mem_iff.mp hr1
    obtain ⟨m, _, heq⟩ := List.mem_filterMap.mp hr2
    by_cases hc : 0 < opts.threshold ∧
        cosineSimilarity sq embedding m.embedding < opts.threshold
    · simp only [if_pos hc] at heq
      exact absurd heq (by simp)
    · simp only [if_neg hc] at heq
      push_neg at hc
      have := hc hthr
      cases heq
      exact this
  · have h1 : (Search sq rows embedding opts).length ≤
        (if 0 < opts.limit then opts.limit else 10).toNat := by
      simp only [Search]
      exact List.length_take_le _ _
    have h2 : (0 : ℤ) < if 0 < opts.limit then opts.limit else 10 := by
      split <;> omega
    omega

theorem C1_search_spec_witness :
    (0 : ℚ) < 1 / 2 ∧
    ∀ r ∈ Search (fun x => x)
        [⟨"id1", "c", "p", "context", "", "", [], [1], 0, 0⟩] [1]
        ⟨"", [], [], 0, 1 / 2⟩,
      (1 : ℚ) / 2 ≤ r.similarity :=
  ⟨by norm_num,
    (C1_search_spec (fun x => x)
        [⟨"id1", "c", "p", "context", "", "", [], [1], 0, 0⟩] [1]
        ⟨"", [], [], 0, 1 / 2⟩).2.1 (by norm_num)⟩

/-- The timestamp handling shared by `Store.Add` and `Store.AddBatch`
(part_008 lines 134-138 and 265-268): a zero `created_at` is set to `now`,
`updated_at` is always set to `now`. -/
def stamp (now : ℕ) (m : Memory) : Memory :=
  { m with createdAt := if m.createdAt = 0 then now else m.createdAt, updatedAt := now }

/-- `Store.Add` (part_008 lines 118-158): marshal metadata (which cannot
fail for a string-to-string map), pack the embedding — of any length, the
configured `dims` is never consulted — stamp timestamps and INSERT.  The
only failure for a well-formed row is the `id` primary-key violation. -/
def StoreAdd (dims : ℕ) (db : List Memory) (now : ℕ) (m : Memory) :
    Except String (List Memory) :=
  if (db.map Memory.id).contains m.id then
    Except.error ("failed to insert memory: " ++ m.id)
  else Except.ok (db ++ [stamp now m])

theorem bytesToFloat32Core_length (b : List ℕ) :
    (Sqlite.bytesToFloat32Core b).length = b.length / 4 := by
  induction b using Sqlite.bytesToFloat32Core.induct with
  | case1 b0 b1 b2 b3 rest ih =>
      simp only [Sqlite.bytesToFloat32Core, List.length_cons, ih]
      omega
  | case2 b h =>
      match b, h with
      | [], _ => simp [Sqlite.bytesToFloat32Core]
      | [b0], _ => simp [Sqlite.bytesToFloat32Core]
      | [b0, b1], _ => simp [Sqlite.bytesToFloat32Core]
      | [b0, b1, b2], _ => simp [Sqlite.bytesToFloat32Core]
      | b0 :: b1 :: b2 :: b3 :: rest, h => exact (h b0 b1 b2 b3 rest rfl).elim

/-- C2 fails on the code: `Store.Add` accepts a memory whose embedding
length (2) differs from the configured dimensions (3), and a persisted
blob of 8 bytes (2 floats ≠ 3 dims) decodes to those 2 floats rather than
being ignored. -/
theorem C2_counterexample :
    StoreAdd 3 [] 7 ⟨"m1", "c", "p", "context", "", "", [], [1, 2], 0, 0⟩ =
      Except.ok [⟨"m1", "c", "p", "context", "", "", [], [1, 2], 7, 7⟩] ∧
    Sqlite.bytesToFloat32 (Sqlite.float32ToBytes [5, 6]) = [5, 6] := by
  constructor <;> rfl

/-- C2 (amended): `Store.Add` performs no dimension validation — a memory
with an embedding of any length is inserted whenever its id is fresh, and
a duplicate id is the failure.  On read, a blob yields the empty vector
exactly when its byte length is not divisible by 4; a blob whose length is
a multiple of 4 decodes to `length/4` floats regardless of the configured
dimensions. -/
theorem C2_add_amended (dims : ℕ) (db : List Memory) (now : ℕ) (m : Memory) :
    (¬ m.id ∈ db.map Memory.id → StoreAdd dims db now m = Except.ok (db ++ [stamp now m])) ∧
    (m.id ∈ db.map Memory.id → ∃ e, StoreAdd dims db now m = Except.error e) ∧
    (∀ b : List ℕ, b.length % 4 ≠ 0 → Sqlite.bytesToFloat32 b = []) ∧
    (∀ b : List ℕ, b.length % 4 = 0 →
      (Sqlite.bytesToFloat32 b).length = b.length / 4) := by
  refine ⟨?_, ?_, ?_, ?_⟩
  · intro h
    rw [StoreAdd, if_neg (by simpa using h)]
  · intro h
    exact ⟨"failed to insert memory: " ++ m.id, by rw [StoreAdd, if_pos (by simpa using h)]⟩
  · intro b hb
    rw [Sqlite.bytesToFloat32, if_pos hb]
  · intro b hb
    rw [Sqlite.bytesToFloat32, if_neg (by simpa using hb)]
    exact bytesToFloat32Core_length b

theorem C2_add_amended_witness :
    StoreAdd 3 [] 7 ⟨"m2", "c", "p", "context", "", "", [], [1, 2], 0, 0⟩ =
      Except.ok ([] ++ [stamp 7 ⟨"m2", "c", "p", "context", "", "", [], [1, 2], 0, 0⟩]) ∧
    (Sqlite.bytesToFloat32 [1, 2, 3]).length = 0 :=
  ⟨(C2_add_amended 3 [] 7 ⟨"m2", "c", "p", "context", "", "", [], [1, 2], 0, 0⟩).1
      (by simp),
    by
      have := (C2_add_amended 3 [] 7
        ⟨"m2", "c", "p", "context", "", "", [], [1, 2], 0, 0⟩).2.2.1 [1, 2, 3] (by decide)
      rw [this]
      rfl⟩

/-- The insert loop of `Store.AddBatch` (part_008 lines 256-285), running
inside one transaction: `pending` is the set of rows written so far in the
transaction; an insert fails iff its id already exists among the committed
rows or the pending ones. -/
def addBatchLoop (db : List Memory) (now : ℕ) :
    List Memory → List Memory → Except String (List Memory)
  | pending, [] => Except.ok pending
  | pending, m :: rest =>
    if ((db ++ pending).map Memory.id).contains m.id then
      Except.error ("failed to insert memory " ++ m.id)
    else addBatchLoop db now (pending ++ [stamp now m]) rest

/-- `Store.AddBatch` (part_008 lines 237-288): begin a transaction, insert
every memory with a prepared statement, commit at the end; the deferred
`tx.Rollback()` discards the pending rows on any early error return, so
the visible store is unchanged on failure. -/
def StoreAddBatch (db : List Memory) (now : ℕ) (ms : List Memory) :
    List Memory × Option String :=
  match addBatchLoop db now [] ms with
  | Except.ok pending => (db ++ pending, none)
  | Except.error e => (db, some e)

theorem addBatchLoop_ok (db : List Memory) (now : ℕ) :
    ∀ (ms pending res : List Memory),
      addBatchLoop db now pending ms = Except.ok res →
      res = pending ++ ms.map (stamp now) := by
  intro ms
  induction ms with
  | nil =>
      intro pending res h
      simp only [addBatchLoop] at h
      cases h
      simp
  | cons m rest ih =>
      intro pending res h
      simp only [addBatchLoop] at h
      by_cases hc : ((db ++ pending).map Memory.id).contains m.id
      · rw [if_pos hc] at h
        exact absurd h (by simp)
      · rw [if_neg hc] at h
        have := ih (pending ++ [stamp now m]) res h
        simpa using this

/-- C5: AddBatch is atomic — on error the store is unchanged; on success
the new store is the old one extended with the whole (stamped) batch, so
every memory of the batch is persisted. -/
theorem C5_addBatch_atomic (db : List Memory) (now : ℕ) (ms : List Memory) :
    ((StoreAddBatch db now ms).2.isSome → (StoreAddBatch db now ms).1 = db) ∧
    ((StoreAddBatch db now ms).2 = none →
      (StoreAddBatch db now ms).1 = db ++ ms.map (stamp now) ∧
      ∀ m ∈ ms, m.id ∈ (StoreAddBatch db now ms).1.map Memory.id) := by
  cases h : addBatchLoop db now [] ms with
  | error e =>
      constructor
      · intro _
        simp [StoreAddBatch, h]
      · intro hnone
        exfalso
        simp [StoreAddBatch, h] at hnone
  | ok pending =>
      have hp : pending = ms.map (stamp now) := by
        simpa using addBatchLoop_ok db now ms [] pending h
      constructor
      · intro hsome
        exfalso
        simp [StoreAddBatch, h] at hsome
      · intro _
        constructor
        · simp [StoreAddBatch, h, hp]
        · intro m hm
          simp only [StoreAddBatch, h, List.map_append, List.mem_append]
          right
          rw [hp]
          exact List.mem_map.mpr ⟨stamp now m, List.mem_map.mpr ⟨m, hm, rfl⟩, rfl⟩

theorem C5_addBatch_atomic_witness :
    (StoreAddBatch [] 7 [⟨"b1", "c", "p", "context", "", "", [], [1], 0, 0⟩]).1 =
      [] ++ [⟨"b1", "c", "p", "context", "", "", [], [1], 0, 0⟩].map (stamp 7) ∧
    ∀ m ∈ [⟨"b1", "c", "p", "context", "", "", [], [(1 : ℚ)], 0, 0⟩],
      Memory.id m ∈
        (StoreAddBatch [] 7 [⟨"b1", "c", "p", "context", "", "", [], [1], 0, 0⟩]).1.map
          Memory.id :=
  (C5_addBatch_atomic [] 7 [⟨"b1", "c", "p", "context", "", "", [], [1], 0, 0⟩]).2 rfl

end Sqlite

namespace Cache

/-!
Model of `internal/cache/lru.go`.

The Go cache keeps a doubly-linked list in recency order plus a map from
key to list element; both are modelled by a single association list in
most-recently-used-first order.  Go slices are pointers into a heap: to
state the aliasing claims faithfully, vectors live in an explicit `Heap`
(`List (List ℚ)`, address = index) and both the caller's argument to
`Put` and the value returned by `Get` are heap addresses.
-/

/-- An LRU cache: capacity and the entries in most-recently-used-first
order (the front of the list is the front of `c.order`). -/
structure LRU (K V : Type) where
  capacity : ℕ
  items : List (K × V)

/-- `LRU.Get` (lru.go lines 39-53): a hit moves the entry to the front and
returns its value unchanged. -/
def lruGet {K V : Type} [DecidableEq K] (c : LRU K V) (k : K) : Option V × LRU K V :=
  match c.items.find? (fun e => decide (e.1 = k)) with
  | some e => (some e.2, ⟨c.capacity, (k, e.2) :: c.items.eraseP (fun e' => decide (e'.1 = k))⟩)
  | none => (none, c)

/-- `LRU.Put` (lru.go lines 56-79): an existing key is updated and moved
to the front; otherwise, when `order.Len() >= capacity`, the back entry is
evicted before the new entry is pushed to the front. -/
def lruPut {K V : Type} [DecidableEq K] (c : LRU K V) (k : K) (v : V) : LRU K V :=
  if (c.items.find? (fun e => decide (e.1 = k))).isSome then
    ⟨c.capacity, (k, v) :: c.items.eraseP (fun e => decide (e.1 = k))⟩
  else
    ⟨c.capacity,
      (k, v) :: (if c.capacity ≤ c.items.length then c.items.dropLast else c.items)⟩

/-- Heap of float32 vectors; a Go slice header is an address into it. -/
abbrev Heap : Type := List (List ℚ)

/-- Dereference a slice: the vector at address `a`. -/
def deref (h : Heap) (a : ℕ) : List ℚ :=
  List.getD h a []

/-- In-place mutation `v[i] = x` through the slice at address `a`. -/
def heapSet (h : Heap) (a i : ℕ) (x : ℚ) : Heap :=
  List.set h a ((deref h a).set i x)

/-- Allocation of a fresh vector holding the given values (`make` +
`copy`). -/
def alloc (h : Heap) (v : List ℚ) : Heap × ℕ :=
  (h ++ [v], h.length)

/-- `EmbeddingCache` (lru.go lines 125-127): an LRU from hashed content to
an embedding — here to the address of the cached vector.  `hash` models
`hashContent` (SHA-256 truncated to 128 bits, hex). -/
def EmbeddingCache : Type := LRU String ℕ

/-- `EmbeddingCache.Put` (lru.go lines 143-149): the stored vector is a
fresh copy of the caller's vector (`make` + `copy`), inserted under the
content hash. -/
def ecPut (hash : String → String) (c : EmbeddingCache) (h : Heap) (content : String)
    (src : ℕ) : EmbeddingCache × Heap :=
  let p := alloc h (deref h src)
  (lruPut c (hash content) p.2, p.1)

/-- `EmbeddingCache.Get` (lru.go lines 137-140): returns the cached slice
header itself — the address of the vector inside the cache, not a copy. -/
def ecGet (hash : String → String) (c : EmbeddingCache) (content : String) :
    Option ℕ × EmbeddingCache :=
  lruGet c (hash content)

/-- C4 fails on the code: after `Put`, a `Get` returns the address of the
cached vector itself; mutating through it changes what the next `Get`
dereferences to (`[99, 2]`), away from the originally cached `[1, 2]`. -/
theorem C4_counterexample :
    (ecGet id (ecPut id ⟨10, []⟩ [[1, 2]] "t" 0).1 "t").1 = some 1 ∧
    deref (ecPut id ⟨10, []⟩ [[1, 2]] "t" 0).2 1 = [1, 2] ∧
    deref (heapSet (ecPut id ⟨10, []⟩ [[1, 2]] "t" 0).2 1 0 99) 1 = [99, 2] ∧
    (ecGet id (ecGet id (ecPut id ⟨10, []⟩ [[1, 2]] "t" 0).1 "t").2 "t").1 = some 1 := by
  refine ⟨rfl, rfl, rfl, rfl⟩

/-- C4 (amended): `EmbeddingCache.Put` stores an independent copy — after
`Put`, a `Get` returns a fresh address holding the put vector's values,
and mutating the caller's original vector does not change the cached copy.
But `Get` aliases: it hands out the cached address itself, it keeps
handing out the same address on subsequent `Get`s, and mutating through
that address rewrites the cached vector in place. -/
theorem deref_append_fresh (h : Heap) (v : List ℚ) : deref (h ++ [v]) h.length = v := by
  rw [deref, List.getD_eq_getElem?_getD, List.getElem?_append_right (le_refl _)]
  simp

theorem deref_heapSet_ne (h : Heap) (a b i : ℕ) (x : ℚ) (hab : a ≠ b) :
    deref (heapSet h a i x) b = deref h b := by
  rw [heapSet, deref, deref, List.getD_eq_getElem?_getD, List.getD_eq_getElem?_getD,
    List.getElem?_set_ne hab]
  rw [deref, List.getD_eq_getElem?_getD]

theorem deref_heapSet_self (h : Heap) (a : ℕ) (ha : a < h.length) (i : ℕ) (x : ℚ) :
    deref (heapSet h a i x) a = (deref h a).set i x := by
  rw [heapSet, deref, List.getD_eq_getElem?_getD, List.getElem?_set_self ha]
  rfl

theorem lruGet_fst (K V : Type) [DecidableEq K] (c : LRU K V) (k : K) :
    (lruGet c k).1 = (c.items.find? (fun e => decide (e.1 = k))).map Prod.snd := by
  rw [lruGet]
  cases c.items.find? (fun e => decide (e.1 = k)) <;> rfl

theorem lruGet_stable (K V : Type) [DecidableEq K] (c : LRU K V) (k : K) (v : V)
    (hget : (lruGet c k).1 = some v) : (lruGet (lruGet c k).2 k).1 = some v := by
  rw [lruGet_fst] at hget
  cases hfind : c.items.find? (fun e => decide (e.1 = k)) with
  | none => rw [hfind] at hget; exact absurd hget (by simp)
  | some e =>
      rw [hfind] at hget
      have hv : e.2 = v := by simpa using hget
      simp only [lruGet, hfind]
      rw [List.find?_cons_of_pos _ (by simp)]
      simpa using hv

theorem lruGet_lruPut_fresh (K V : Type) [DecidableEq K] (c : LRU K V) (k : K) (v : V) :
    (lruGet (lruPut c k v) k).1 = some v := by
  rw [lruPut]
  by_cases hf : ((c.items.find? (fun e => decide (e.1 = k))).isSome : Prop)
  · rw [if_pos hf]
    simp only [lruGet]
    rw [List.find?_cons_of_pos _ (by simp)]
  · rw [if_neg hf]
    simp only [lruGet]
    rw [List.find?_cons_of_pos _ (by simp)]

/-- C4 (amended): `EmbeddingCache.Put` stores an independent copy — after
`Put`, a `Get` returns a fresh address holding the put vector's values,
and mutating the caller's original vector afterwards does not change the
cached copy.  But `Get` aliases: it hands out the cached address itself,
it keeps handing out the same address on subsequent `Get`s, and mutating
through that address rewrites the cached vector in place. -/
theorem C4_cache_aliasing_amended (hash : String → String) (c : EmbeddingCache)
    (h : Heap) (content : String) (src : ℕ) (hsrc : src < h.length) :
    ((ecGet hash (ecPut hash c h content src).1 content).1 = some h.length ∧
      deref (ecPut hash c h content src).2 h.length = deref h src ∧
      ∀ i x, deref (heapSet (ecPut hash c h content src).2 src i x) h.length =
        deref h src) ∧
    (∀ (c' : EmbeddingCache) (a : ℕ),
      (ecGet hash c' content).1 = some a →
      ((ecGet hash (ecGet hash c' content).2 content).1 = some a ∧
        ∀ (h' : Heap) i x, a < h'.length →
          deref (heapSet h' a i x) a = (deref h' a).set i x)) := by
  constructor
  · refine ⟨?_, ?_, ?_⟩
    · exact lruGet_lruPut_fresh String ℕ c (hash content) h.length
    · exact deref_append_fresh h (deref h src)
    · intro i x
      show deref (heapSet (h ++ [deref h src]) src i x) h.length = deref h src
      rw [deref_heapSet_ne _ _ _ _ _ (by omega)]
      exact deref_append_fresh h (deref h src)
  · intro c' a hget
    exact ⟨lruGet_stable String ℕ c' (hash content) a hget,
      fun h' i x hah => deref_heapSet_self h' a hah i x⟩

theorem C4_cache_aliasing_amended_witness :
    (ecGet id (ecPut id ⟨10, []⟩ [[(1 : ℚ), 2]] "t" 0).1 "t").1 = some 1 ∧
    deref (ecPut id ⟨10, []⟩ [[(1 : ℚ), 2]] "t" 0).2 1 = deref [[(1 : ℚ), 2]] 0 :=
  ⟨by simpa using
      (C4_cache_aliasing_amended id ⟨10, []⟩ [[(1 : ℚ), 2]] "t" 0 (by decide)).1.1,
    by simpa using
      (C4_cache_aliasing_amended id ⟨10, []⟩ [[(1 : ℚ), 2]] "t" 0 (by decide)).1.2.1⟩

/-- C7 fails on the code at capacity `C = 0`: `Put` evicts from an empty
list (a no-op) and then pushes the new entry, so a capacity-0 cache holds
one element.  Inserting the `C+1 = 1` key `1` then makes `Get 1` a hit,
where the claim requires a miss. -/
theorem C7_counterexample :
    (lruGet (lruPut (⟨0, []⟩ : LRU ℕ ℕ) 1 11) 1).1 = some 11 := rfl

theorem foldl_lruPut_fresh (K V : Type) [DecidableEq K] (C : ℕ) (vals : K → V) :
    ∀ (ks : List K) (items : List (K × V)),
      (ks ++ items.map Prod.fst).Nodup → items.length + ks.length ≤ C →
      ks.foldl (fun c k => lruPut c k (vals k)) ⟨C, items⟩ =
        ⟨C, (ks.map (fun k => (k, vals k))).reverse ++ items⟩ := by
  intro ks
  induction ks with
  | nil => intro items _ _; simp
  | cons k rest ih =>
      intro items hnd hle
      have hnd0 : (k :: (rest ++ items.map Prod.fst)).Nodup := by simpa using hnd
      have hknotin : k ∉ items.map Prod.fst := fun hk =>
        (List.nodup_cons.mp hnd0).1 (List.mem_append_right rest hk)
      have hfind : items.find? (fun e => decide (e.1 = k)) = none := by
        rw [List.find?_eq_none]
        intro e he
        simp only [decide_eq_true_eq]
        intro hek
        exact hknotin (hek ▸ List.mem_map_of_mem Prod.fst he)
      have hcap : ¬ C ≤ items.length := by simp at hle; omega
      have hput : lruPut (⟨C, items⟩ : LRU K V) k (vals k) = ⟨C, (k, vals k) :: items⟩ := by
        rw [lruPut, hfind]
        simp only [Option.isSome_none, Bool.false_eq_true, if_false]
        rw [if_neg hcap]
      have hnd' : (rest ++ ((k, vals k) :: items).map Prod.fst).Nodup := by
        have hperm : List.Perm (k :: (rest ++ items.map Prod.fst))
            (rest ++ k :: items.map Prod.fst) := List.perm_middle.symm
        have : (k :: (rest ++ items.map Prod.fst)).Nodup := by simpa using hnd
        simpa using this.perm hperm
      have := ih ((k, vals k) :: items) hnd' (by simp at hle ⊢; omega)
      calc (k :: rest).foldl (fun c k => lruPut c k (vals k)) ⟨C, items⟩
          = rest.foldl (fun c k => lruPut c k (vals k)) ⟨C, (k, vals k) :: items⟩ := by
            rw [List.foldl_cons, hput]
        _ = ⟨C, (rest.map (fun k => (k, vals k))).reverse ++ (k, vals k) :: items⟩ := this
        _ = ⟨C, ((k :: rest).map (fun k => (k, vals k))).reverse ++ items⟩ := by
            simp

/-- C7 (amended): the LRU eviction claims hold for every capacity `C ≥ 1`
(capacity 0 degenerates to capacity 1, see the counterexample): inserting
`C+1` distinct keys into an empty cache makes the first key a miss and the
last key a hit; and with capacity 2, after `Put k1; Put k2; Get k1;
Put k3`, key `k2` is evicted while `k1` remains retrievable — `Get` hits
count as a use. -/
theorem C7_lru_amended :
    (∀ (K V : Type) [DecidableEq K] (C : ℕ) (vals : K → V) (ks : List K) (k1 kl : K),
      1 ≤ C → ks.Nodup → ks.length = C + 1 →
      ks.head? = some k1 → ks.getLast? = some kl →
      (lruGet (ks.foldl (fun c k => lruPut c k (vals k)) ⟨C, []⟩) k1).1 = none ∧
      (lruGet (ks.foldl (fun c k => lruPut c k (vals k)) ⟨C, []⟩) kl).1 = some (vals kl)) ∧
    (∀ (K V : Type) [DecidableEq K] (k1 k2 k3 : K) (v1 v2 v3 : V),
      k1 ≠ k2 → k1 ≠ k3 → k2 ≠ k3 →
      (lruGet (lruPut (lruGet (lruPut (lruPut (⟨2, []⟩ : LRU K V) k1 v1) k2 v2)
          k1).2 k3 v3) k2).1 = none ∧
      (lruGet (lruPut (lruGet (lruPut (lruPut (⟨2, []⟩ : LRU K V) k1 v1) k2 v2)
          k1).2 k3 v3) k1).1 = some v1) := by
  constructor
  · intro K V instK C vals ks k1 kl hC hnd hlen hhead hlast
    have hne : ks ≠ [] := by intro h; rw [h] at hlen; simp at hlen
    have hkl : ks.getLast hne = kl := by
      have := List.getLast?_eq_getLast ks hne
      rw [this] at hlast
      exact Option.some_injective _ hlast
    have hdecomp : ks.dropLast ++ [kl] = ks := by
      rw [← hkl]; exact List.dropLast_append_getLast hne
    have hinitlen : ks.dropLast.length = C := by
      rw [List.length_dropLast, hlen]; rfl
    have hinitne : ks.dropLast ≠ [] := by
      intro h; rw [h] at hinitlen; simp at hinitlen; omega
    have hndinit : (ks.dropLast ++ ([] : List (K × V)).map Prod.fst).Nodup := by
      simpa using hnd.sublist (List.dropLast_sublist ks)
    have hfill := foldl_lruPut_fresh K V C vals ks.dropLast [] hndinit
      (by simp only [List.length_nil, Nat.zero_add, hinitlen]; exact le_refl C)
    have hfold : ks.foldl (fun c k => lruPut c k (vals k)) ⟨C, []⟩ =
        lruPut (⟨C, (ks.dropLast.map (fun k => (k, vals k))).reverse ++ []⟩ : LRU K V)
          kl (vals kl) := by
      conv_lhs => rw [← hdecomp]
      rw [List.foldl_append, hfill]
      rfl
    have hklnotin : kl ∉ ks.dropLast := by
      have hnd2 : (ks.dropLast ++ [kl]).Nodup := hdecomp.symm ▸ hnd
      have hdisj := (List.nodup_append.mp hnd2).2.2
      exact fun hmem => hdisj hmem (by simp)
    have hfind : ((ks.dropLast.map (fun k => (k, vals k))).reverse ++
        ([] : List (K × V))).find? (fun e => decide (e.1 = kl)) = none := by
      rw [List.find?_eq_none]
      intro e he
      simp only [decide_eq_true_eq]
      intro hek
      simp only [List.append_nil, List.mem_reverse, List.mem_map] at he
      obtain ⟨k, hk, hke⟩ := he
      have hkkl : k = kl := by rw [← hek, ← hke]
      exact hklnotin (hkkl ▸ hk)
    have hcap : C ≤ ((ks.dropLast.map (fun k => (k, vals k))).reverse ++
        ([] : List (K × V))).length := by
      simp only [List.append_nil, List.length_reverse, List.length_map, hinitlen]
      omega
    have hput : lruPut (⟨C, (ks.dropLast.map (fun k => (k, vals k))).reverse ++ []⟩ :
        LRU K V) kl (vals kl) =
        ⟨C, (kl, vals kl) ::
          ((ks.dropLast.map (fun k => (k, vals k))).reverse ++ []).dropLast⟩ := by
      rw [lruPut, hfind]
      simp only [Option.isSome_none, Bool.false_eq_true, if_false]
      rw [if_pos hcap]
    have hk1 : ks.dropLast.head hinitne = k1 := by
      have h1 : ks.head? = ks.dropLast.head? := by
        conv_lhs => rw [← hdecomp]
        exact List.head?_append_of_ne_nil _ hinitne
      rw [h1, List.head?_eq_head hinitne] at hhead
      exact Option.some_injective _ hhead
    have hk1mem : k1 ∈ ks.dropLast := hk1 ▸ List.head_mem hinitne
    have hk1ne : k1 ≠ kl := by
      intro h
      exact hklnotin (h ▸ hk1mem)
    have hk1tail : k1 ∉ ks.dropLast.tail := by
      have : ks.dropLast.Nodup := by simpa using hndinit
      rw [← List.head_cons_tail ks.dropLast hinitne, hk1] at this
      exact (List.nodup_cons.mp this).1
    have hdropRev : ((ks.dropLast.map (fun k => (k, vals k))).reverse ++
        ([] : List (K × V))).dropLast =
        (ks.dropLast.tail.map (fun k => (k, vals k))).reverse := by
      rw [List.append_nil]
      rw [← List.head_cons_tail ks.dropLast hinitne]
      simp [List.dropLast_concat]
    constructor
    · rw [hfold, hput, hdropRev]
      rw [lruGet]
      have : ((kl, vals kl) ::
          (ks.dropLast.tail.map (fun k => (k, vals k))).reverse).find?
            (fun e => decide (e.1 = k1)) = none := by
        rw [List.find?_eq_none]
        intro e he
        simp only [decide_eq_true_eq]
        intro hek
        rcases List.mem_cons.mp he with h | h
        · rw [h] at hek
          exact hk1ne (by simpa using hek.symm)
        · simp only [List.mem_reverse, List.mem_map] at h
          obtain ⟨k, hk, hke⟩ := h
          rw [← hke] at hek
          simp at hek
          exact hk1tail (hek ▸ hk)
      rw [this]
    · rw [hfold, hput, hdropRev]
      rw [lruGet]
      rw [List.find?_cons_of_pos _ (by simp)]
  · intro K V instK k1 k2 k3 v1 v2 v3 h12 h13 h23
    have s1 : lruPut (⟨2, []⟩ : LRU K V) k1 v1 = ⟨2, [(k1, v1)]⟩ := by
      rw [lruPut]
      simp
    have s2 : lruPut (⟨2, [(k1, v1)]⟩ : LRU K V) k2 v2 = ⟨2, [(k2, v2), (k1, v1)]⟩ := by
      rw [lruPut]
      rw [List.find?_cons_of_neg _ (by simp [h12])]
      simp
    have s3 : (lruGet (⟨2, [(k2, v2), (k1, v1)]⟩ : LRU K V) k1).2 =
        ⟨2, [(k1, v1), (k2, v2)]⟩ := by
      rw [lruGet]
      rw [List.find?_cons_of_neg _ (by simp [h12.symm])]
      rw [List.find?_cons_of_pos _ (by simp)]
      simp only []
      congr 1
      rw [List.eraseP_cons_of_neg (by simp [h12.symm])]
      rw [List.eraseP_cons_of_pos (by simp)]
    have s4 : lruPut (⟨2, [(k1, v1), (k2, v2)]⟩ : LRU K V) k3 v3 =
        ⟨2, [(k3, v3), (k1, v1)]⟩ := by
      rw [lruPut]
      rw [List.find?_cons_of_neg _ (by simp [h13])]
      rw [List.find?_cons_of_neg _ (by simp [h23])]
      simp
    rw [s1, s2, s3, s4]
    constructor
    · rw [lruGet]
      rw [List.find?_cons_of_neg _ (by simp [h23.symm])]
      rw [List.find?_cons_of_neg _ (by simp [h12])]
      rfl
    · rw [lruGet]
      rw [List.find?_cons_of_neg _ (by simp [h13.symm])]
      rw [List.find?_cons_of_pos _ (by simp)]

theorem C7_lru_amended_witness :
    (lruGet (([1, 2, 3] : List ℕ).foldl (fun c k => lruPut c k (10 * k)) ⟨2, []⟩) 1).1 =
      none ∧
    (lruGet (([1, 2, 3] : List ℕ).foldl (fun c k => lruPut c k (10 * k)) ⟨2, []⟩) 3).1 =
      some 30 :=
  C7_lru_amended.1 ℕ ℕ 2 (fun k => 10 * k) [1, 2, 3] 1 3 (by decide) (by decide)
    (by decide) (by decide) (by decide)

end Cache

namespace MemoryService

/-- `memory.Config` (service.go lines 42-51). -/
structure ServiceConfig where
  dataDir : String
  embedBatchSize : ℤ
  indexIgnore : List String
  defaultProject : String
  defaultSearchLimit : ℤ
  defaultSearchThreshold : ℚ

/-- `memory.DefaultConfig` (service.go lines 54-63). -/
def DefaultConfig : ServiceConfig :=
  ⟨"~/.moneta", 50, [".git", "node_modules", "vendor", "__pycache__", ".venv"],
    "default", 10, 1 / 2⟩

/-- The config normalization `NewService` applies (part_005 lines 29-49):
non-positive limits/thresholds and empty project fall back to 10, 0.5,
"default", 50. -/
def NewServiceConfig (cfg : ServiceConfig) : ServiceConfig :=
  { cfg with
    defaultSearchLimit := if cfg.defaultSearchLimit ≤ 0 then 10 else cfg.defaultSearchLimit,
    defaultSearchThreshold :=
      if cfg.defaultSearchThreshold ≤ 0 then 1 / 2 else cfg.defaultSearchThreshold,
    defaultProject := if cfg.defaultProject = "" then "default" else cfg.defaultProject,
    embedBatchSize := if cfg.embedBatchSize ≤ 0 then 50 else cfg.embedBatchSize }

/-- `types.SearchRequest` as consumed by `serviceImpl.Search`. -/
structure SearchRequest where
  query : String
  project : String
  type : String
  limit : ℤ
  threshold : ℚ

/-- The pure fragment of `serviceImpl.Search` (part_005 lines 94-126) that
validates the query and builds the store `SearchOptions`: non-positive
request limit and threshold are replaced by the service defaults before
the store is called.  (The embedding round trip does not influence the
options and is elided.) -/
def serviceSearchOptions (cfg : ServiceConfig) (req : SearchRequest) :
    Option SearchOptions :=
  if req.query = "" then none
  else
    some ⟨req.project,
      (if req.type = "" then [] else [req.type]),
      [],
      (if req.limit ≤ 0 then cfg.defaultSearchLimit else req.limit),
      (if req.threshold ≤ 0 then cfg.defaultSearchThreshold else req.threshold)⟩

/-- C10: for a service built by `NewService`, a request with non-positive
threshold gets the configured default threshold (0.5 when the config left
it unset or non-positive) and likewise for the limit (default 10), and the
options passed to the store always carry a strictly positive threshold and
limit — no caller can reach the store with a threshold-0 (unfiltered)
search. -/
theorem C10_service_search_defaults (cfg : ServiceConfig) (req : SearchRequest)
    (opts : SearchOptions)
    (h : serviceSearchOptions (NewServiceConfig cfg) req = some opts) :
    0 < opts.threshold ∧ (0 : ℤ) < opts.limit ∧
    (req.threshold ≤ 0 → opts.threshold =
      (if cfg.defaultSearchThreshold ≤ 0 then 1 / 2 else cfg.defaultSearchThreshold)) ∧
    (req.limit ≤ 0 → opts.limit =
      (if cfg.defaultSearchLimit ≤ 0 then 10 else cfg.defaultSearchLimit)) ∧
    (0 < req.threshold → opts.threshold = req.threshold) ∧
    (0 < req.limit → opts.limit = req.limit) := by
  rw [serviceSearchOptions] at h
  by_cases hq : req.query = ""
  · rw [if_pos hq] at h
    exact absurd h (by simp)
  · rw [if_neg hq] at h
    have hopts := Option.some_injective _ h
    subst hopts
    refine ⟨?_, ?_, ?_, ?_, ?_, ?_⟩
    · show 0 < (if req.threshold ≤ 0 then
        (NewServiceConfig cfg).defaultSearchThreshold else req.threshold)
      simp only [NewServiceConfig]
      split_ifs with h1 h2
      · norm_num
      · exact lt_of_not_le h2
      · exact lt_of_not_le h1
    · show (0 : ℤ) < (if req.limit ≤ 0 then
        (NewServiceConfig cfg).defaultSearchLimit else req.limit)
      simp only [NewServiceConfig]
      split_ifs with h1 h2 <;> omega
    · intro hreq
      show (if req.threshold ≤ 0 then
          (NewServiceConfig cfg).defaultSearchThreshold else req.threshold) = _
      rw [if_pos hreq]
      rfl
    · intro hreq
      show (if req.limit ≤ 0 then
          (NewServiceConfig cfg).defaultSearchLimit else req.limit) = _
      rw [if_pos hreq]
      rfl
    · intro hreq
      show (if req.threshold ≤ 0 then
          (NewServiceConfig cfg).defaultSearchThreshold else req.threshold) = req.threshold
      rw [if_neg (by exact not_le.mpr hreq)]
    · intro hreq
      show (if req.limit ≤ 0 then
          (NewServiceConfig cfg).defaultSearchLimit else req.limit) = req.limit
      rw [if_neg (by omega)]

theorem C10_service_search_defaults_witness :
    0 < (⟨"", [], [], 10, 1 / 2⟩ : SearchOptions).threshold ∧
    (0 : ℤ) < (⟨"", [], [], 10, 1 / 2⟩ : SearchOptions).limit :=
  have h := C10_service_search_defaults DefaultConfig ⟨"q", "", "", 0, 0⟩
    ⟨"", [], [], 10, 1 / 2⟩
    (by
      rw [serviceSearchOptions, if_neg (by decide)]
      norm_num [NewServiceConfig, DefaultConfig])
  ⟨h.1, h.2.1⟩

end MemoryService

namespace Chunking

/-!
Model of the chunkers (`internal/embeddings/ollama.go`, chunking part,
lines 243-682 of the concatenated file: `LineChunker.Chunk` at 277-336 and
`CodeChunker.chunkGo` at 465-553).

Go strings are modelled as `List Char`; Go's byte lengths coincide with
character counts on ASCII input, and none of the proved bounds depend on
the distinction.  `strings.Split(content, "\n")` is `splitNL`;
`bufio.Scanner` line reading is `scanLines` (it yields no final empty line
when the input ends in a newline).
-/

/-- `unicode.IsSpace` for the space classes relevant to source text
(ASCII whitespace plus NEL and NBSP). -/
def isSpaceGo (c : Char) : Bool :=
  c == ' ' || c == '\t' || c == '\n' || c == '\x0b' || c == '\x0c' || c == '\r' ||
    c == '\x85' || c == '\xa0'

/-- `strings.TrimSpace`. -/
def trimSpace (s : List Char) : List Char :=
  ((s.dropWhile isSpaceGo).reverse.dropWhile isSpaceGo).reverse

/-- `strings.Split(content, "\n")`: always at least one piece. -/
def splitNL : List Char → List (List Char)
  | [] => [[]]
  | c :: rest =>
    match splitNL rest with
    | [] => [[c]]
    | h :: t => if c = '\n' then [] :: h :: t else (c :: h) :: t

/-- `bufio.Scanner` over the content: like `splitNL`, except a trailing
newline produces no final empty line, and empty input yields no lines. -/
def scanLines (s : List Char) : List (List Char) :=
  if s = [] then []
  else if (splitNL s).getLast? = some [] then (splitNL s).dropLast else splitNL s

/-- `types.Chunk`. -/
structure Chunk where
  content : List Char
  startLine : ℕ
  endLine : ℕ
  type : String
  name : List Char
deriving DecidableEq

/-- `chunking.ChunkOptions`. -/
structure ChunkOptions where
  language : String
  maxSize : ℤ
  overlap : ℤ
  semantic : Bool

/-- The suffix after the first newline, when one exists
(`strings.Index(lastPart, "\n")` plus the `idx+1` slice). -/
def dropThroughNL : List Char → Option (List Char)
  | [] => none
  | c :: rest => if c = '\n' then some rest else dropThroughNL rest

/-- `findOverlapStart` (lines 373-384): the last `overlap` characters of
the previous chunk, cut down to whole lines when they contain a newline. -/
def findOverlapStart (content : List Char) (overlap : ℤ) : List Char :=
  if (content.length : ℤ) ≤ overlap then content
  else
    let lastPart := content.drop (content.length - overlap.toNat)
    match dropThroughNL lastPart with
    | some suffix => suffix
    | none => lastPart

/-- Loop state of `LineChunker.Chunk`: emitted chunks, the builder buffer,
and the two line counters. -/
structure LCState where
  chunks : List Chunk
  buf : List Char
  startLine : ℕ
  currentLine : ℕ
deriving DecidableEq

/-- One iteration of the `for _, line := range lines` loop of
`LineChunker.Chunk` (lines 299-323): flush when appending the line would
exceed `maxSize` and the buffer is non-empty, seed the next buffer with
the overlap prefix, then append the line. -/
def lcStep (maxSize overlap : ℤ) (st : LCState) (line : List Char) : LCState :=
  let st1 :=
    if (st.buf.length : ℤ) + line.length + 1 > maxSize ∧ 0 < st.buf.length then
      let ch : Chunk := ⟨trimSpace st.buf, st.startLine, st.currentLine - 1, "text", []⟩
      let ov := findOverlapStart ch.content overlap
      ⟨st.chunks ++ [ch], if ov ≠ [] then ov ++ ['\n'] else [], st.currentLine,
        st.currentLine⟩
    else st
  ⟨st1.chunks, st1.buf ++ line ++ ['\n'], st1.startLine, st1.currentLine + 1⟩

def lineChunkRun (maxSize overlap : ℤ) (lines : List (List Char)) : LCState :=
  lines.foldl (lcStep maxSize overlap) ⟨[], [], 1, 1⟩

/-- `LineChunker.Chunk` (lines 277-336): empty content yields no chunks;
`opts.MaxSize`/`opts.Overlap` fall back to the chunker's configured values
(`cMaxSize`, `cOverlap`, themselves defaulted by `NewLineChunker`); the
final non-empty buffer is flushed as a trailing chunk. -/
def LineChunkerChunk (cMaxSize cOverlap : ℤ) (opts : ChunkOptions)
    (content : List Char) : List Chunk :=
  if content = [] then []
  else
    let maxSize := if opts.maxSize ≤ 0 then cMaxSize else opts.maxSize
    let overlap := if opts.overlap < 0 then cOverlap else opts.overlap
    let st := lineChunkRun maxSize overlap (splitNL content)
    if 0 < st.buf.length then
      st.chunks ++ [⟨trimSpace st.buf, st.startLine, st.currentLine - 1, "text", []⟩]
    else st.chunks

/-- `NewLineChunker` defaulting (lines 263-274). -/
def NewLineChunker (maxSize overlap : ℤ) : ℤ × ℤ :=
  (if maxSize ≤ 0 then 1500 else maxSize, if overlap < 0 then 100 else overlap)

/-- `strings.HasPrefix(strings.TrimSpace(line), "func ")`. -/
def hasFuncPrefix (line : List Char) : Bool :=
  List.isPrefixOf ['f', 'u', 'n', 'c', ' '] (trimSpace line)

/-- Split on whitespace keeping empty pieces (helper for `fieldsGo`). -/
def splitOnSpace : List Char → List (List Char)
  | [] => [[]]
  | c :: rest =>
    match splitOnSpace rest with
    | [] => [[c]]
    | h :: t => if isSpaceGo c then [] :: h :: t else (c :: h) :: t

/-- `strings.Fields`. -/
def fieldsGo (s : List Char) : List (List Char) :=
  (splitOnSpace s).filter (fun f => decide (f ≠ []))

/-- `name[:strings.Index(name, "(")]` — a missing `(` keeps the whole
name. -/
def takeUntilParen (s : List Char) : List Char :=
  s.takeWhile (fun c => decide (c ≠ '('))

/-- The function-name extraction of `chunkGo` (lines 496-504): the second
whitespace field of the trimmed line, cut at the first `(`; fewer than two
fields leave the current name unchanged (`none`). -/
def extractFuncName (line : List Char) : Option (List Char) :=
  match fieldsGo (trimSpace line) with
  | _ :: nm :: _ => some (takeUntilParen nm)
  | _ => none

/-- `strings.Count(line, c)` for a single character. -/
def countChar (l : List Char) (c : Char) : ℕ :=
  (l.filter (fun x => x == c)).length

/-- Loop state of `chunkGo`. -/
structure CGState where
  chunks : List Chunk
  buf : List Char
  name : List Char
  startLine : ℕ
  lineNum : ℕ
  braceDepth : ℤ
  inFunc : Bool
deriving DecidableEq

/-- The `func `-detection block of `chunkGo` (lines 481-505): flush any
buffered chunk as a `function` chunk ending at the previous line, then
restart at the current line and record the extracted name.  `ln` is the
already-incremented `lineNum`. -/
def cgFunc (st : CGState) (line : List Char) (ln : ℕ) : CGState :=
  if hasFuncPrefix line then
    let base :=
      if st.buf ≠ [] then
        { st with
          chunks :=
            st.chunks ++ [⟨trimSpace st.buf, st.startLine, ln - 1, "function", st.name⟩]
          buf := ([] : List Char) }
      else st
    { base with
      startLine := ln
      inFunc := true
      name := (extractFuncName line).getD base.name }
  else st

/-- Appending the current line to the buffer (lines 507-508). -/
def cgAppend (st : CGState) (line : List Char) : CGState :=
  { st with buf := st.buf ++ line ++ ['\n'] }

/-- Brace-depth tracking (line 511). -/
def cgBrace (st : CGState) (line : List Char) : CGState :=
  { st with
    braceDepth := st.braceDepth + (countChar line '\x7b' : ℤ) - (countChar line '\x7d' : ℤ) }

/-- End-of-function emission (lines 514-526): inside a function, when the
brace depth returns to 0 on a line containing a closing brace, emit the
buffer as a `function` chunk ending at the current line. -/
def cgEndFunc (st : CGState) (line : List Char) (ln : ℕ) : CGState :=
  if st.inFunc = true ∧ st.braceDepth = 0 ∧ countChar line '\x7d' ≠ 0 then
    { st with
      chunks := st.chunks ++ [⟨trimSpace st.buf, st.startLine, ln, "function", st.name⟩]
      buf := ([] : List Char)
      name := ([] : List Char)
      startLine := ln + 1
      inFunc := false }
  else st

/-- Over-size emission outside a function (lines 529-538). -/
def cgOversize (maxSize : ℤ) (st : CGState) (line : List Char) (ln : ℕ) : CGState :=
  if (st.buf.length : ℤ) > maxSize ∧ st.inFunc = false then
    { st with
      chunks := st.chunks ++ [⟨trimSpace st.buf, st.startLine, ln, "text", []⟩]
      buf := ([] : List Char)
      startLine := ln + 1 }
  else st

/-- One iteration of the scanner loop of `chunkGo` (lines 476-539), in
source order: `lineNum++`, func detection, append, brace tracking,
end-of-function emission, over-size emission. -/
def cgStep (maxSize : ℤ) (st : CGState) (line : List Char) : CGState :=
  let ln := st.lineNum + 1
  { cgOversize maxSize
      (cgEndFunc (cgBrace (cgAppend (cgFunc st line ln) line) line) line ln) line ln with
    lineNum := ln }

def chunkGoRun (maxSize : ℤ) (lines : List (List Char)) : CGState :=
  lines.foldl (cgStep maxSize) ⟨[], [], [], 1, 0, 0, false⟩

/-- `CodeChunker.chunkGo` (lines 465-553): run the scanner loop, then
flush a trailing text chunk from any remaining buffer.  `chunkJS`
delegates here unchanged (lines 652-656). -/
def chunkGo (opts : ChunkOptions) (content : List Char) : List Chunk :=
  let st := chunkGoRun opts.maxSize (scanLines content)
  if st.buf ≠ [] then
    st.chunks ++ [⟨trimSpace st.buf, st.startLine, st.lineNum, "text", st.name⟩]
  else st.chunks

/-- C8 fails on the code: a whitespace-only input produces a chunk that is
empty after trimming — `LineChunker.Chunk` on the one-character content
`" "` emits exactly one chunk, whose content is empty. -/
theorem C8_counterexample :
    LineChunkerChunk 1500 100 ⟨"text", 1500, 100, false⟩ [' '] =
      [⟨[], 1, 1, "text", []⟩] := by decide

/-- A chunk with well-formed line bounds relative to a line count `n`. -/
def chunkBounded (n : ℕ) (c : Chunk) : Prop :=
  1 ≤ c.startLine ∧ c.startLine ≤ c.endLine ∧ c.endLine ≤ n

/-- Loop invariant of `LineChunker.Chunk` after `k` processed lines. -/
def lcInv (k : ℕ) (st : LCState) : Prop :=
  st.currentLine = k + 1 ∧
  1 ≤ st.startLine ∧
  st.startLine ≤ st.currentLine ∧
  (st.buf ≠ [] → st.startLine < st.currentLine) ∧
  ∀ c ∈ st.chunks, 1 ≤ c.startLine ∧ c.startLine ≤ c.endLine ∧ c.endLine + 2 ≤ st.currentLine

theorem lcStep_inv (maxSize overlap : ℤ) (line : List Char) (k : ℕ) (st : LCState)
    (h : lcInv k st) : lcInv (k + 1) (lcStep maxSize overlap st line) := by
  obtain ⟨h1, h2, h3, h4, h5⟩ := h
  simp only [lcStep]
  by_cases hc : (st.buf.length : ℤ) + line.length + 1 > maxSize ∧ 0 < st.buf.length
  · rw [if_pos hc]
    have hbuf : st.buf ≠ [] := by
      intro hb
      rw [hb] at hc
      simp at hc
    have hlt := h4 hbuf
    refine ⟨by simp <;> omega, by simp <;> omega, by simp <;> omega, fun _ => by simp <;> omega, ?_⟩
    intro c hcm
    simp only [List.mem_append, List.mem_singleton] at hcm
    rcases hcm with hcm | rfl
    · have := h5 c hcm
      simp <;> omega
    · simp <;> omega
  · rw [if_neg hc]
    refine ⟨by simp <;> omega, by simp <;> omega, by simp <;> omega, fun _ => by simp <;> omega, ?_⟩
    intro c hcm
    have := h5 c hcm
    simp <;> omega

theorem lineChunkRun_inv (maxSize overlap : ℤ) (lines : List (List Char)) :
    lcInv lines.length (lineChunkRun maxSize overlap lines) := by
  suffices h : ∀ (ls : List (List Char)) (k : ℕ) (st : LCState), lcInv k st →
      lcInv (k + ls.length) (ls.foldl (lcStep maxSize overlap) st) by
    have h0 : lcInv 0 (⟨[], [], 1, 1⟩ : LCState) :=
      ⟨rfl, le_refl 1, le_refl 1, fun hb => absurd rfl hb, by simp⟩
    simpa [lineChunkRun] using h lines 0 _ h0
  intro ls
  induction ls with
  | nil => intro k st h; simpa using h
  | cons l rest ih =>
      intro k st h
      have hrec := ih (k + 1) _ (lcStep_inv maxSize overlap l k st h)
      have heq : k + 1 + rest.length = k + (l :: rest).length := by simp <;> omega
      rw [List.foldl_cons]
      rw [← heq]
      exact hrec

/-- The trailing flush of `LineChunker.Chunk` (lines 326-333). -/
theorem finishLC_bounds (st : LCState) (k : ℕ) (h : lcInv k st) (c : Chunk)
    (hc : c ∈ (if 0 < st.buf.length then
      st.chunks ++ [⟨trimSpace st.buf, st.startLine, st.currentLine - 1, "text", []⟩]
    else st.chunks)) : chunkBounded k c := by
  obtain ⟨h1, h2, h3, h4, h5⟩ := h
  by_cases hb : 0 < st.buf.length
  · rw [if_pos hb] at hc
    have hbuf : st.buf ≠ [] := by
      intro hbe
      rw [hbe] at hb
      simp at hb
    have hlt := h4 hbuf
    rcases List.mem_append.mp hc with hcm | hcm
    · obtain ⟨a1, a2, a3⟩ := h5 c hcm
      exact ⟨a1, a2, by omega⟩
    · have hce : c = ⟨trimSpace st.buf, st.startLine, st.currentLine - 1, "text", []⟩ := by
        simpa using hcm
      subst hce
      exact ⟨h2, by simp <;> omega, by simp <;> omega⟩
  · rw [if_neg hb] at hc
    have := h5 c hc
    exact ⟨this.1, this.2.1, by omega⟩

theorem lineChunker_bounds (cMax cOv : ℤ) (opts : ChunkOptions) (content : List Char)
    (c : Chunk) (hc : c ∈ LineChunkerChunk cMax cOv opts content) :
    chunkBounded (splitNL content).length c := by
  rw [LineChunkerChunk] at hc
  by_cases hne : content = []
  · rw [if_pos hne] at hc
    exact absurd hc (by simp)
  · rw [if_neg hne] at hc
    exact finishLC_bounds _ _ (lineChunkRun_inv _ _ (splitNL content)) c hc

/-- Loop invariant of `chunkGo` after `k` scanned lines. -/
def cgInv (k : ℕ) (st : CGState) : Prop :=
  st.lineNum = k ∧
  1 ≤ st.startLine ∧
  st.startLine ≤ st.lineNum + 1 ∧
  (st.buf ≠ [] → st.startLine ≤ st.lineNum ∧ 1 ≤ st.lineNum) ∧
  ∀ c ∈ st.chunks, chunkBounded st.lineNum c

theorem cgFunc_bounds (st : CGState) (line : List Char) (ln : ℕ)
    (h1 : 1 ≤ st.startLine) (h2 : st.startLine ≤ ln)
    (h3 : st.buf ≠ [] → st.startLine + 1 ≤ ln)
    (h4 : ∀ c ∈ st.chunks, chunkBounded ln c) :
    1 ≤ (cgFunc st line ln).startLine ∧ (cgFunc st line ln).startLine ≤ ln ∧
    ∀ c ∈ (cgFunc st line ln).chunks, chunkBounded ln c := by
  rw [cgFunc]
  by_cases hf : hasFuncPrefix line
  · rw [if_pos hf]
    by_cases hb : st.buf ≠ []
    · rw [if_pos hb]
      have hs := h3 hb
      refine ⟨by simp <;> omega, by simp <;> omega, ?_⟩
      intro c hc
      simp only [List.mem_append, List.mem_singleton] at hc
      rcases hc with hc | rfl
      · exact h4 c hc
      · exact ⟨h1, by simp <;> omega, by simp <;> omega⟩
    · rw [if_neg hb]
      exact ⟨by simp <;> omega, by simp <;> omega, fun c hc => h4 c hc⟩
  · rw [if_neg hf]
    exact ⟨h1, h2, h4⟩

theorem cgEndFunc_bounds (st : CGState) (line : List Char) (ln : ℕ)
    (h1 : 1 ≤ st.startLine) (h2 : st.startLine ≤ ln)
    (h4 : ∀ c ∈ st.chunks, chunkBounded ln c) :
    1 ≤ (cgEndFunc st line ln).startLine ∧ (cgEndFunc st line ln).startLine ≤ ln + 1 ∧
    ((cgEndFunc st line ln).buf ≠ [] → (cgEndFunc st line ln).startLine ≤ ln) ∧
    ∀ c ∈ (cgEndFunc st line ln).chunks, chunkBounded ln c := by
  rw [cgEndFunc]
  by_cases he : st.inFunc = true ∧ st.braceDepth = 0 ∧ countChar line '\x7d' ≠ 0
  · rw [if_pos he]
    refine ⟨by simp <;> omega, by simp <;> omega, fun hb => absurd rfl hb, ?_⟩
    intro c hc
    simp only [List.mem_append, List.mem_singleton] at hc
    rcases hc with hc | rfl
    · exact h4 c hc
    · exact ⟨h1, by simp <;> omega, by simp⟩
  · rw [if_neg he]
    exact ⟨h1, by omega, fun _ => h2, h4⟩

theorem cgOversize_bounds (maxSize : ℤ) (hms : 0 ≤ maxSize) (st : CGState)
    (line : List Char) (ln : ℕ)
    (h1 : 1 ≤ st.startLine) (h2 : st.startLine ≤ ln + 1)
    (h3 : st.buf ≠ [] → st.startLine ≤ ln)
    (h4 : ∀ c ∈ st.chunks, chunkBounded ln c) :
    1 ≤ (cgOversize maxSize st line ln).startLine ∧
    (cgOversize maxSize st line ln).startLine ≤ ln + 1 ∧
    ((cgOversize maxSize st line ln).buf ≠ [] →
      (cgOversize maxSize st line ln).startLine ≤ ln) ∧
    ∀ c ∈ (cgOversize maxSize st line ln).chunks, chunkBounded ln c := by
  rw [cgOversize]
  by_cases ho : (st.buf.length : ℤ) > maxSize ∧ st.inFunc = false
  · rw [if_pos ho]
    have hbuf : st.buf ≠ [] := by
      intro hbe
      rw [hbe] at ho
      simp at ho
      omega
    have hs := h3 hbuf
    refine ⟨by simp <;> omega, by simp <;> omega, fun hb => absurd rfl hb, ?_⟩
    intro c hc
    simp only [List.mem_append, List.mem_singleton] at hc
    rcases hc with hc | rfl
    · exact h4 c hc
    · exact ⟨h1, by simp <;> omega, by simp⟩
  · rw [if_neg ho]
    exact ⟨h1, h2, h3, h4⟩

theorem cgStep_inv (maxSize : ℤ) (hms : 0 ≤ maxSize) (line : List Char) (k : ℕ)
    (st : CGState) (h : cgInv k st) : cgInv (k + 1) (cgStep maxSize st line) := by
  obtain ⟨h1, h2, h3, h4, h5⟩ := h
  have hfn := cgFunc_bounds st line (st.lineNum + 1)
    h2 (by omega)
    (fun hb => by have := h4 hb; omega)
    (fun c hc => by obtain ⟨a1, a2, a3⟩ := h5 c hc; exact ⟨a1, a2, by omega⟩)
  obtain ⟨f1, f2, f3⟩ := hfn
  have happ1 : (cgBrace (cgAppend (cgFunc st line (st.lineNum + 1)) line) line).startLine =
      (cgFunc st line (st.lineNum + 1)).startLine := rfl
  have happ2 : (cgBrace (cgAppend (cgFunc st line (st.lineNum + 1)) line) line).chunks =
      (cgFunc st line (st.lineNum + 1)).chunks := rfl
  have hef := cgEndFunc_bounds (cgBrace (cgAppend (cgFunc st line (st.lineNum + 1)) line) line)
    line (st.lineNum + 1)
    (by rw [happ1]; exact f1) (by rw [happ1]; exact f2)
    (by rw [happ2]; exact f3)
  obtain ⟨e1, e2, e3, e4⟩ := hef
  have hov := cgOversize_bounds maxSize hms
    (cgEndFunc (cgBrace (cgAppend (cgFunc st line (st.lineNum + 1)) line) line) line
      (st.lineNum + 1))
    line (st.lineNum + 1) e1 e2 e3 e4
  obtain ⟨o1, o2, o3, o4⟩ := hov
  refine ⟨by simp [cgStep]; omega, ?_, ?_, ?_, ?_⟩
  · simpa [cgStep] using o1
  · show (cgStep maxSize st line).startLine ≤ (cgStep maxSize st line).lineNum + 1
    simp only [cgStep]
    exact o2
  · intro hb
    have hb' : (cgOversize maxSize
        (cgEndFunc (cgBrace (cgAppend (cgFunc st line (st.lineNum + 1)) line) line) line
          (st.lineNum + 1)) line (st.lineNum + 1)).buf ≠ [] := hb
    have := o3 hb'
    constructor
    · simpa [cgStep] using this
    · show 1 ≤ (cgStep maxSize st line).lineNum
      simp [cgStep]
  · intro c hc
    have hc' : c ∈ (cgOversize maxSize
        (cgEndFunc (cgBrace (cgAppend (cgFunc st line (st.lineNum + 1)) line) line) line
          (st.lineNum + 1)) line (st.lineNum + 1)).chunks := hc
    obtain ⟨a1, a2, a3⟩ := o4 c hc'
    exact ⟨a1, a2, by simpa [cgStep] using a3⟩

theorem chunkGoRun_inv (maxSize : ℤ) (hms : 0 ≤ maxSize) (lines : List (List Char)) :
    cgInv lines.length (chunkGoRun maxSize lines) := by
  suffices h : ∀ (ls : List (List Char)) (k : ℕ) (st : CGState), cgInv k st →
      cgInv (k + ls.length) (ls.foldl (cgStep maxSize) st) by
    have h0 : cgInv 0 (⟨[], [], [], 1, 0, 0, false⟩ : CGState) :=
      ⟨rfl, le_refl 1, by simp, fun hb => absurd rfl hb, by simp⟩
    simpa [chunkGoRun] using h lines 0 _ h0
  intro ls
  induction ls with
  | nil => intro k st h; simpa using h
  | cons l rest ih =>
      intro k st h
      have hrec := ih (k + 1) _ (cgStep_inv maxSize hms l k st h)
      have heq : k + 1 + rest.length = k + (l :: rest).length := by simp <;> omega
      rw [List.foldl_cons, ← heq]
      exact hrec

theorem scanLines_length_le (content : List Char) :
    (scanLines content).length ≤ (splitNL content).length := by
  rw [scanLines]
  by_cases hne : content = []
  · rw [if_pos hne]
    simp
  · rw [if_neg hne]
    by_cases hl : (splitNL content).getLast? = some []
    · rw [if_pos hl]
      simpa using List.length_dropLast_le (splitNL content)
    · rw [if_neg hl]

theorem chunkGo_bounds (opts : ChunkOptions) (hms : 0 ≤ opts.maxSize)
    (content : List Char) (c : Chunk) (hc : c ∈ chunkGo opts content) :
    chunkBounded (splitNL content).length c := by
  rw [chunkGo] at hc
  obtain ⟨h1, h2, h3, h4, h5⟩ := chunkGoRun_inv opts.maxSize hms (scanLines content)
  have hlen := scanLines_length_le content
  by_cases hb : (chunkGoRun opts.maxSize (scanLines content)).buf ≠ []
  · rw [if_pos hb] at hc
    have hbs := h4 hb
    rcases List.mem_append.mp hc with hcm | hcm
    · obtain ⟨a1, a2, a3⟩ := h5 c hcm
      exact ⟨a1, a2, by omega⟩
    · have hce : c = ⟨trimSpace (chunkGoRun opts.maxSize (scanLines content)).buf,
          (chunkGoRun opts.maxSize (scanLines content)).startLine,
          (chunkGoRun opts.maxSize (scanLines content)).lineNum, "text",
          (chunkGoRun opts.maxSize (scanLines content)).name⟩ := by
        simpa using hcm
      subst hce
      exact ⟨h2, by simp <;> omega, by simp <;> omega⟩
  · rw [if_neg hb] at hc
    obtain ⟨a1, a2, a3⟩ := h5 c hc
    exact ⟨a1, a2, by omega⟩

/-- C8 (amended): every chunk emitted by the line chunker — for any
configuration — and by the Go-aware code chunker — for any non-negative
`max_size`, the only values reachable through the constructors — satisfies
`1 ≤ start_line ≤ end_line ≤ total_lines(input)`.  The no-empty-chunk
half of the claim is false: a whitespace-only buffer is emitted with
empty trimmed content (see the counterexample). -/
theorem C8_chunk_bounds_amended :
    (∀ (cMax cOv : ℤ) (opts : ChunkOptions) (content : List Char),
      ∀ c ∈ LineChunkerChunk cMax cOv opts content,
        1 ≤ c.startLine ∧ c.startLine ≤ c.endLine ∧
          c.endLine ≤ (splitNL content).length) ∧
    (∀ (opts : ChunkOptions), 0 ≤ opts.maxSize → ∀ (content : List Char),
      ∀ c ∈ chunkGo opts content,
        1 ≤ c.startLine ∧ c.startLine ≤ c.endLine ∧
          c.endLine ≤ (splitNL content).length) :=
  ⟨fun cMax cOv opts content c hc => lineChunker_bounds cMax cOv opts content c hc,
    fun opts hms content c hc => chunkGo_bounds opts hms content c hc⟩

theorem C8_chunk_bounds_amended_witness :
    (1 ≤ (1 : ℕ) ∧ (1 : ℕ) ≤ 2 ∧ (2 : ℕ) ≤ 2) ∧ (1 ≤ (1 : ℕ) ∧ (1 : ℕ) ≤ 2 ∧ (2 : ℕ) ≤ 2) :=
  ⟨by
    have h := C8_chunk_bounds_amended.1 1500 100 ⟨"text", 1500, 100, false⟩
      ['a', '\n', 'b'] ⟨['a', '\n', 'b'], 1, 2, "text", []⟩ (by decide)
    simpa using h,
  by
    have h := C8_chunk_bounds_amended.2 ⟨"go", 1500, 100, true⟩ (by decide)
      ['a', '\n', 'b'] ⟨['a', '\n', 'b'], 1, 2, "text", []⟩ (by decide)
    simpa using h⟩

end Chunking

end Moneta
